import Mathlib

/-!
Verification of the yaler MITM forward proxy (src/http.rs, src/acceptor.rs,
src/server.rs) against its natural-language specification.

Bytes are modelled as `Nat` (CR = 13, LF = 10), byte streams as `List Nat`,
strings as `List Char`.  Fallible operations return `Except`/`Option`;
a Rust `unwrap()` panic is modelled as `none`.
-/

namespace Yaler

/-- Error kinds relevant to the modelled code paths (src/error.rs). -/
inductive Error where
  | ReadUntilError
  | BadHttpError
  | TcpConnectError
  deriving DecidableEq, Repr

/-- Model of `tokio::io::AsyncBufReadExt::read_until(b'\r', buf)` on a pure
byte stream: consumes bytes up to and including the first CR (byte 13);
at end of stream it consumes everything that is left.  Returns the consumed
bytes and the remaining stream. -/
def readUntilCR : List Nat → List Nat × List Nat
  | [] => ([], [])
  | b :: rest =>
      if b = 13 then ([13], rest)
      else
        let (c, r) := readUntilCR rest
        (b :: c, r)

theorem readUntilCR_append (s : List Nat) :
    (readUntilCR s).1 ++ (readUntilCR s).2 = s := by
  induction s with
  | nil => rfl
  | cons b rest ih =>
      by_cases hb : b = 13
      · simp [readUntilCR, hb]
      · simp only [readUntilCR, hb, if_false]
        simpa using ih

theorem readUntilCR_length (s : List Nat) :
    (readUntilCR s).2.length ≤ s.length := by
  have h := congrArg List.length (readUntilCR_append s)
  simp only [List.length_append] at h
  omega

/-- `ReadHttpExt::read_until_header_end` (src/http.rs lines 16-35), embedded
over a pure byte stream.  Arguments: the caller-supplied accumulator `vec`
and the stream `s`.  Each loop iteration reads until (and including) the
next CR into a fresh `buf`, then reads exactly three more bytes `check`
(failing with `BadHttpError` if fewer than three remain), appends both to
`vec`, and terminates with `Ok(vec.len())` once `check = LF CR LF`.
Returns `(return value, final vec, remaining stream)`. -/
def read_until_header_end (vec s : List Nat) :
    Except Error (Nat × List Nat × List Nat) :=
  if 3 ≤ (readUntilCR s).2.length then
    if (readUntilCR s).2.take 3 = [10, 13, 10] then
      .ok ((vec ++ (readUntilCR s).1 ++ (readUntilCR s).2.take 3).length,
           vec ++ (readUntilCR s).1 ++ (readUntilCR s).2.take 3,
           (readUntilCR s).2.drop 3)
    else
      read_until_header_end (vec ++ (readUntilCR s).1 ++ (readUntilCR s).2.take 3)
        ((readUntilCR s).2.drop 3)
  else
    .error .BadHttpError
termination_by s.length
decreasing_by
  have h2 := readUntilCR_length s
  simp only [List.length_drop]
  omega

example :
    read_until_header_end [] [13, 10, 13, 10, 65] = .ok (4, [13, 10, 13, 10], [65]) := by
  simp [read_until_header_end, readUntilCR]

theorem rduhe_chunk_append (vec s : List Nat) :
    vec ++ (readUntilCR s).1 ++ (readUntilCR s).2.take 3 ++ (readUntilCR s).2.drop 3
      = vec ++ s := by
  rw [List.append_assoc (vec ++ (readUntilCR s).1), List.take_append_drop,
    List.append_assoc, readUntilCR_append]

/-- On success the final buffer and the unread remainder partition the
input: `v ++ r = vec ++ s`, and the returned count is the final buffer's
length. -/
theorem rduhe_ok_spec (vec s : List Nat) :
    ∀ n v r, read_until_header_end vec s = .ok (n, v, r) →
      v ++ r = vec ++ s ∧ n = v.length := by
  induction vec, s using read_until_header_end.induct with
  | case1 vec s h3 hterm =>
      intro n v r h
      rw [read_until_header_end] at h
      simp only [h3, if_true, hterm, if_pos, Except.ok.injEq, Prod.mk.injEq] at h
      obtain ⟨hn, hv, hr⟩ := h
      subst hv
      subst hr
      subst hn
      rw [← hterm]
      exact ⟨rduhe_chunk_append vec s, rfl⟩
  | case2 vec s h3 hterm ih =>
      intro n v r h
      rw [read_until_header_end] at h
      simp only [h3, if_true, hterm, if_neg, if_false] at h
      obtain ⟨hvr, hn⟩ := ih n v r h
      refine ⟨?_, hn⟩
      rw [hvr, rduhe_chunk_append vec s]
  | case3 vec s h3 =>
      intro n v r h
      rw [read_until_header_end] at h
      simp [h3] at h

theorem readUntilCR_no13 (l t : List Nat) (hl : ¬ 13 ∈ l) :
    readUntilCR (l ++ 13 :: t) = (l ++ [13], t) := by
  induction l with
  | nil => simp [readUntilCR]
  | cons b l ih =>
      have hb : b ≠ 13 := by
        intro h; exact hl (h ▸ List.mem_cons_self b l)
      have hl' : ¬ 13 ∈ l := fun h => hl (List.mem_cons_of_mem b h)
      simp only [List.cons_append, readUntilCR, hb, if_false, List.append_eq, ih hl']

/-- One loop iteration of `read_until_header_end` on a stream whose next
line is CR-free: the line and CR are consumed by `read_until`, the next
three bytes by `read_exact`, and the loop stops iff they are LF CR LF. -/
theorem rduhe_step (vec l : List Nat) (a b c : Nat) (t : List Nat) (hl : ¬ 13 ∈ l) :
    read_until_header_end vec (l ++ 13 :: a :: b :: c :: t) =
      if [a, b, c] = [10, 13, 10] then
        .ok ((vec ++ l ++ [13, a, b, c]).length, vec ++ l ++ [13, a, b, c], t)
      else read_until_header_end (vec ++ l ++ [13, a, b, c]) t := by
  rw [read_until_header_end, readUntilCR_no13 l _ hl]
  by_cases h : ([a, b, c] : List Nat) = [10, 13, 10]
  · rw [if_pos h]
    simp only [List.take, List.drop, List.length_cons]
    rw [if_pos (by omega), if_pos h]
    simp [List.append_assoc]
  · rw [if_neg h]
    simp only [List.take, List.drop, List.length_cons]
    rw [if_pos (by omega), if_neg h]
    simp [List.append_assoc]

/-- `headerBlock [l2, ..., lm] = l2 CRLF l3 CRLF ... lm CRLF CRLF`: the part
of an HTTP header block after the first line's CRLF.  A full block with
first line `l` is `l ++ [13, 10] ++ headerBlock lines`. -/
def headerBlock : List (List Nat) → List Nat
  | [] => [13, 10]
  | l :: ls => l ++ [13, 10] ++ headerBlock ls

theorem rduhe_block (lines : List (List Nat)) (vec l rest : List Nat)
    (hl : ¬ 13 ∈ l) (hlines : ∀ x ∈ lines, ¬ 13 ∈ x ∧ 2 ≤ x.length) :
    read_until_header_end vec (l ++ [13, 10] ++ headerBlock lines ++ rest) =
      .ok ((vec ++ l ++ [13, 10] ++ headerBlock lines).length,
           vec ++ l ++ [13, 10] ++ headerBlock lines, rest) := by
  induction lines generalizing vec l with
  | nil =>
      have hs : l ++ [13, 10] ++ headerBlock [] ++ rest
          = l ++ 13 :: 10 :: 13 :: 10 :: rest := by
        simp [headerBlock]
      rw [hs, rduhe_step vec l 10 13 10 rest hl, if_pos rfl]
      simp [headerBlock, List.append_assoc]
  | cons x xs ih =>
      obtain ⟨hx13, hxlen⟩ := hlines x (List.mem_cons_self x xs)
      match x, hx13, hxlen with
      | a :: b :: x', hx13, _ =>
        have ha : a ≠ 13 := by
          intro h; exact hx13 (h ▸ List.mem_cons_self a (b :: x'))
        have hx' : ¬ 13 ∈ x' := fun h =>
          hx13 (List.mem_cons_of_mem a (List.mem_cons_of_mem b h))
        have hs : l ++ [13, 10] ++ headerBlock ((a :: b :: x') :: xs) ++ rest
            = l ++ 13 :: 10 :: a :: b :: (x' ++ [13, 10] ++ headerBlock xs ++ rest) := by
          simp [headerBlock, List.append_assoc]
        have hne : ¬ (([10, a, b] : List Nat) = [10, 13, 10]) := by
          intro h
          injection h with h1 h2
          injection h2 with h2 h3
          exact ha h2
        rw [hs, rduhe_step vec l 10 a b _ hl, if_neg hne,
          ih (vec ++ l ++ [13, 10, a, b]) x' hx'
            (fun y hy => hlines y (List.mem_cons_of_mem _ hy))]
        simp [headerBlock, List.append_assoc]

/-- Reference notion for C2, from the claim's words: split a stream at the
first occurrence of CR LF CR LF, returning the prefix up to and including
the terminator together with everything after it. -/
def headerSplit : List Nat → Option (List Nat × List Nat)
  | [] => none
  | b :: rest =>
      if b = 13 ∧ rest.take 3 = [10, 13, 10] then
        some ([13, 10, 13, 10], rest.drop 3)
      else
        match headerSplit rest with
        | some (p, r) => some (b :: p, r)
        | none => none

example : headerSplit [65, 13, 10, 13, 10, 66] = some ([65, 13, 10, 13, 10], [66]) := by
  decide

theorem headerSplit_cons_pos (b : Nat) (rest : List Nat)
    (h : b = 13 ∧ rest.take 3 = [10, 13, 10]) :
    headerSplit (b :: rest) = some ([13, 10, 13, 10], rest.drop 3) := by
  rw [headerSplit, if_pos h]

theorem headerSplit_cons_neg (b : Nat) (rest : List Nat)
    (h : ¬ (b = 13 ∧ rest.take 3 = [10, 13, 10])) :
    headerSplit (b :: rest) = (headerSplit rest).map (fun p => (b :: p.1, p.2)) := by
  rw [headerSplit, if_neg h]
  cases hh : headerSplit rest with
  | none => simp
  | some p => simp

theorem headerSplit_no13_append (l s : List Nat) (hl : ¬ 13 ∈ l) :
    headerSplit (l ++ s) = (headerSplit s).map (fun p => (l ++ p.1, p.2)) := by
  induction l with
  | nil =>
      cases h : headerSplit s with
      | none => simp [h]
      | some p => simp [h]
  | cons b l ih =>
      have hb : b ≠ 13 := by
        intro h; exact hl (h ▸ List.mem_cons_self b l)
      have hl' : ¬ 13 ∈ l := fun h => hl (List.mem_cons_of_mem b h)
      have hcond : ¬ (b = 13 ∧ (l ++ s).take 3 = [10, 13, 10]) := fun h => hb h.1
      rw [List.cons_append, headerSplit_cons_neg b _ hcond, ih hl']
      cases h : headerSplit s with
      | none => simp
      | some p => simp

/-- On a well-formed header block (CR-free lines, later lines at least two
bytes long) followed by arbitrary `rest`, the first CR LF CR LF of the
stream is exactly the block's final one. -/
theorem headerSplit_block (lines : List (List Nat)) (l rest : List Nat)
    (hl : ¬ 13 ∈ l) (hlines : ∀ x ∈ lines, ¬ 13 ∈ x ∧ 2 ≤ x.length) :
    headerSplit (l ++ [13, 10] ++ headerBlock lines ++ rest) =
      some (l ++ [13, 10] ++ headerBlock lines, rest) := by
  induction lines generalizing l with
  | nil =>
      have hs : l ++ [13, 10] ++ headerBlock [] ++ rest
          = l ++ (13 :: 10 :: 13 :: 10 :: rest) := by
        simp [headerBlock]
      rw [hs, headerSplit_no13_append l _ hl,
        headerSplit_cons_pos 13 (10 :: 13 :: 10 :: rest) ⟨rfl, rfl⟩]
      simp [headerBlock]
  | cons x xs ih =>
      obtain ⟨hx13, hxlen⟩ := hlines x (List.mem_cons_self x xs)
      match x, hx13, hxlen with
      | a :: b :: x', hx13, _ =>
        have ha : a ≠ 13 := by
          intro h; exact hx13 (h ▸ List.mem_cons_self a (b :: x'))
        have hs : l ++ [13, 10] ++ headerBlock ((a :: b :: x') :: xs) ++ rest
            = l ++ (13 :: 10 :: a :: b :: (x' ++ ([13, 10] ++ headerBlock xs ++ rest))) := by
          simp [headerBlock, List.append_assoc]
        have h1 : ¬ ((13 : Nat) = 13 ∧
            ((10 : Nat) :: a :: b :: (x' ++ ([13, 10] ++ headerBlock xs ++ rest))).take 3
              = [10, 13, 10]) := by
          intro hh
          have h2 := hh.2
          have h3 : ([10, a, b] : List Nat) = [10, 13, 10] := h2
          injection h3 with h4 h5
          injection h5 with h6 h7
          exact ha h6
        have h2 : ¬ ((10 : Nat) = 13 ∧
            (a :: b :: (x' ++ ([13, 10] ++ headerBlock xs ++ rest))).take 3
              = [10, 13, 10]) := by
          intro hh
          exact absurd hh.1 (by decide)
        have ihx := ih (a :: b :: x') hx13 (fun y hy => hlines y (List.mem_cons_of_mem _ hy))
        have hsx : (a :: b :: x') ++ [13, 10] ++ headerBlock xs ++ rest
            = a :: b :: (x' ++ ([13, 10] ++ headerBlock xs ++ rest)) := by
          simp [List.append_assoc]
        rw [hsx] at ihx
        rw [hs, headerSplit_no13_append l _ hl,
          headerSplit_cons_neg 13 _ h1, headerSplit_cons_neg 10 _ h2, ihx]
        simp [headerBlock, List.append_assoc]

/-- The stream "ab\rX\r\n\r\nline\r\n\r\n": its first CR LF CR LF ends at
byte index 7, but the stray CR at index 2 desynchronizes the reader's
read-until-CR / read-exact-3 rhythm, so the reader runs past it. -/
def c2Stream : List Nat :=
  [97, 98, 13, 88, 13, 10, 13, 10, 108, 105, 110, 101, 13, 10, 13, 10]

/-- C2, counterexample: on `c2Stream` — which contains CR LF CR LF ending at
index 7 — `read_until_header_end` returns `Ok`, but the bytes it appends to
the (initially empty) buffer are the whole 16-byte stream, not the 8-byte
prefix up to and including the first CR LF CR LF, and it has consumed the
8 bytes past that terminator.  This refutes the claim as stated. -/
theorem c2_counterexample :
    read_until_header_end [] c2Stream = .ok (16, c2Stream, []) ∧
    headerSplit c2Stream = some (c2Stream.take 8, c2Stream.drop 8) ∧
    c2Stream ≠ c2Stream.take 8 := by
  refine ⟨?_, by decide, by decide⟩
  simp [read_until_header_end, readUntilCR, c2Stream]

/-- C2 (amended): for every stream consisting of a header block
`l CRLF l₂ CRLF … lₘ CRLF CRLF` — first line `l` CR-free, every later line
CR-free and at least two bytes long — followed by arbitrary bytes `rest`,
`read_until_header_end` starting from an empty buffer returns successfully,
the bytes it appends are exactly the stream's bytes up to and including the
first occurrence of CR LF CR LF (witnessed by `headerSplit`), and no byte
past that terminator is consumed.  (On streams outside this class the
reader can consume past the first terminator or fail: see the
counterexample.) -/
theorem c2_header_reader_amended (l : List Nat) (lines : List (List Nat)) (rest : List Nat)
    (hl : ¬ 13 ∈ l) (hlines : ∀ x ∈ lines, ¬ 13 ∈ x ∧ 2 ≤ x.length) :
    read_until_header_end [] (l ++ [13, 10] ++ headerBlock lines ++ rest) =
      .ok ((l ++ [13, 10] ++ headerBlock lines).length,
           l ++ [13, 10] ++ headerBlock lines, rest) ∧
    headerSplit (l ++ [13, 10] ++ headerBlock lines ++ rest) =
      some (l ++ [13, 10] ++ headerBlock lines, rest) := by
  constructor
  · have h := rduhe_block lines [] l rest hl hlines
    simpa using h
  · exact headerSplit_block lines l rest hl hlines

/-- Witness for C2 (amended) at the concrete stream
"GET\r\nHo\r\n\r\nX" (first line "GET", one further line "Ho", trailing
byte "X"). -/
theorem c2_header_reader_amended_witness :
    read_until_header_end []
        ([71, 69, 84] ++ [13, 10] ++ headerBlock [[72, 111]] ++ [88]) =
      .ok (([71, 69, 84] ++ [13, 10] ++ headerBlock [[72, 111]]).length,
           [71, 69, 84] ++ [13, 10] ++ headerBlock [[72, 111]], [88]) ∧
    headerSplit ([71, 69, 84] ++ [13, 10] ++ headerBlock [[72, 111]] ++ [88]) =
      some ([71, 69, 84] ++ [13, 10] ++ headerBlock [[72, 111]], [88]) :=
  c2_header_reader_amended [71, 69, 84] [[72, 111]] [88] (by decide) (by decide)

/-- C8: whenever `read_until_header_end` succeeds starting from an empty
caller-supplied buffer, the final buffer contents followed by the unread
remainder of the stream equal the original stream: no byte is lost or
duplicated. -/
theorem c8_header_reader_round_trip (s : List Nat) (n : Nat) (v r : List Nat)
    (h : read_until_header_end [] s = .ok (n, v, r)) :
    v ++ r = s := by
  have hs := rduhe_ok_spec [] s n v r h
  simpa using hs.1

/-- Witness for C8 at the stream CR LF CR LF 'A'. -/
theorem c8_header_reader_round_trip_witness :
    ([13, 10, 13, 10] : List Nat) ++ [65] = [13, 10, 13, 10, 65] :=
  c8_header_reader_round_trip [13, 10, 13, 10, 65] 4 [13, 10, 13, 10] [65]
    (by simp [read_until_header_end, readUntilCR])

/-- C9, counterexample: with a caller-supplied buffer that already holds one
byte, reading the 4-byte stream CR LF CR LF consumes all 4 stream bytes
(the remainder is empty) but the call returns 5 — the final buffer length,
i.e. the pre-existing byte is counted too — refuting the claim that the
return value equals the number of bytes read during the call. -/
theorem c9_counterexample :
    read_until_header_end [0] [13, 10, 13, 10] = .ok (5, [0, 13, 10, 13, 10], []) ∧
    ([13, 10, 13, 10] : List Nat).length = 4 ∧ (5 : Nat) ≠ 4 := by
  refine ⟨?_, by decide, by decide⟩
  simp [read_until_header_end, readUntilCR]

/-- C9 (amended): a successful `read_until_header_end` call returns the
total length of the caller's buffer after the call, which is the buffer's
initial length plus the number of bytes read from the stream during the
call; the return value therefore equals the bytes read exactly when the
buffer starts empty. -/
theorem c9_return_value_amended (vec s : List Nat) (n : Nat) (v r : List Nat)
    (h : read_until_header_end vec s = .ok (n, v, r)) :
    n = v.length ∧ v.length + r.length = vec.length + s.length := by
  obtain ⟨hvr, hn⟩ := rduhe_ok_spec vec s n v r h
  refine ⟨hn, ?_⟩
  have := congrArg List.length hvr
  simpa using this

/-- Witness for C9 (amended) at buffer [0] and stream CR LF CR LF. -/
theorem c9_return_value_amended_witness :
    (5 : Nat) = ([0, 13, 10, 13, 10] : List Nat).length ∧
    ([0, 13, 10, 13, 10] : List Nat).length + ([] : List Nat).length =
      ([0] : List Nat).length + ([13, 10, 13, 10] : List Nat).length :=
  c9_return_value_amended [0] [13, 10, 13, 10] 5 [0, 13, 10, 13, 10] []
    (by simp [read_until_header_end, readUntilCR])

/-- `AcceptorMap::normalize` (src/acceptor.rs lines 65-72): if the host
contains more than one `'.'` (`host.chars().filter(|c| *c == '.').count() > 1`),
prepend `'*'` to the suffix of the host starting at the first dot
(`first_dot = host.find('.').unwrap_or_default()`, then `&host[first_dot..]`);
otherwise return the host unchanged.  `List.findIdx` models `str::find`
(the guard guarantees a dot exists, so `unwrap_or_default` is the found
index). -/
def normalize (host : List Char) : List Char :=
  if (host.filter (fun c => c = '.')).length > 1 then
    '*' :: host.drop (host.findIdx (fun c => c = '.'))
  else
    host

example : normalize ("a.example.com".toList) = "*.example.com".toList := by decide
example : normalize ("nodots".toList) = "nodots".toList := by decide
example : normalize ("example.com".toList) = "example.com".toList := by decide

theorem drop_findIdx_dot (l : List Char) :
    l.drop (l.findIdx (fun c => c = '.')) = l.dropWhile (fun c => c ≠ '.') := by
  induction l with
  | nil => rfl
  | cons a t ih =>
      by_cases h : a = '.'
      · simp [List.findIdx_cons, List.dropWhile_cons, h]
      · simp only [ne_eq, decide_not] at ih ⊢
        simp [List.findIdx_cons, List.dropWhile_cons, h, ih]

theorem filter_dropWhile_dot (l : List Char) :
    ((l.dropWhile (fun c => c ≠ '.')).filter (fun c => c = '.'))
      = l.filter (fun c => c = '.') := by
  induction l with
  | nil => rfl
  | cons a t ih =>
      by_cases h : a = '.'
      · simp [List.dropWhile_cons, h]
      · simp only [ne_eq, decide_not] at ih ⊢
        simp [List.dropWhile_cons, List.filter_cons, h, ih]

theorem dropWhile_dot (l : List Char) (h : 1 ≤ (l.filter (fun c => c = '.')).length) :
    ∃ t, l.dropWhile (fun c => c ≠ '.') = '.' :: t := by
  induction l with
  | nil => simp at h
  | cons a t ih =>
      by_cases ha : a = '.'
      · exact ⟨t, by simp [List.dropWhile_cons, ha]⟩
      · have h' : 1 ≤ (t.filter (fun c => c = '.')).length := by
          simpa [List.filter_cons, ha] using h
        obtain ⟨u, hu⟩ := ih h'
        refine ⟨u, ?_⟩
        simp only [ne_eq, decide_not] at hu ⊢
        simpa [List.dropWhile_cons, ha] using hu

theorem normalize_of_ge2 (host : List Char)
    (h : 2 ≤ (host.filter (fun c => c = '.')).length) :
    normalize host = '*' :: host.dropWhile (fun c => c ≠ '.') := by
  rw [normalize, if_pos (by omega), drop_findIdx_dot]

theorem normalize_of_le1 (host : List Char)
    (h : (host.filter (fun c => c = '.')).length ≤ 1) :
    normalize host = host := by
  rw [normalize, if_neg (by omega)]

theorem normalize_idem (host : List Char) :
    normalize (normalize host) = normalize host := by
  by_cases h : 2 ≤ (host.filter (fun c => c = '.')).length
  · rw [normalize_of_ge2 host h]
    obtain ⟨t, ht⟩ := dropWhile_dot host (by omega)
    have hfilter : (('.' :: t).filter (fun c => c = '.')).length
        = (host.filter (fun c => c = '.')).length := by
      rw [← ht, filter_dropWhile_dot]
    rw [ht]
    rw [normalize]
    rw [if_pos (by
      have hstar : (('*' :: '.' :: t).filter (fun c => c = '.')).length
          = (('.' :: t).filter (fun c => c = '.')).length := by
        simp [List.filter_cons]
      omega)]
    have hidx : (('*' :: '.' :: t).findIdx (fun c => c = '.')) = 1 := by
      simp [List.findIdx_cons]
    rw [hidx]
    rfl
  · rw [normalize_of_le1 host (by omega), normalize_of_le1 host (by omega)]

/-- C3: `normalize` matches the claim's reference definition.  For a host
with at least two dots the result is `'*'` followed by the suffix of the
host from its first dot (`List.dropWhile (· ≠ '.')`); a host with at most
one dot is returned verbatim; `normalize` is idempotent; and two hosts
with at least two dots each that agree from their first dot onward
normalize to the same key. -/
theorem c3_normalize_wildcard (host h1 h2 : List Char) :
    (2 ≤ (host.filter (fun c => c = '.')).length →
      normalize host = '*' :: host.dropWhile (fun c => c ≠ '.')) ∧
    ((host.filter (fun c => c = '.')).length ≤ 1 → normalize host = host) ∧
    normalize (normalize host) = normalize host ∧
    (2 ≤ (h1.filter (fun c => c = '.')).length →
      2 ≤ (h2.filter (fun c => c = '.')).length →
      h1.dropWhile (fun c => c ≠ '.') = h2.dropWhile (fun c => c ≠ '.') →
      normalize h1 = normalize h2) := by
  refine ⟨normalize_of_ge2 host, normalize_of_le1 host, normalize_idem host, ?_⟩
  intro hh1 hh2 heq
  rw [normalize_of_ge2 h1 hh1, normalize_of_ge2 h2 hh2, heq]

/-- Witness for C3 at the hosts "a.example.com", "nodots", and the pair
"a.example.com" / "b.example.com". -/
theorem c3_normalize_wildcard_witness :
    normalize ("a.example.com".toList)
        = '*' :: ("a.example.com".toList.dropWhile (fun c => c ≠ '.')) ∧
    normalize ("nodots".toList) = "nodots".toList ∧
    normalize (normalize ("a.example.com".toList)) = normalize ("a.example.com".toList) ∧
    normalize ("a.example.com".toList) = normalize ("b.example.com".toList) :=
  ⟨(c3_normalize_wildcard "a.example.com".toList [] []).1 (by decide),
   (c3_normalize_wildcard "nodots".toList [] []).2.1 (by decide),
   (c3_normalize_wildcard "a.example.com".toList [] []).2.2.1,
   (c3_normalize_wildcard [] "a.example.com".toList "b.example.com".toList).2.2.2
     (by decide) (by decide) (by decide)⟩

/-! ## Acceptor map (src/acceptor.rs) -/

structure Entry where
  key : List Char
  acceptorId : Nat
  lastAccess : Nat
  deriving DecidableEq, Repr

structure AcceptorMap where
  entries : List Entry
  nextId : Nat
  deriving DecidableEq, Repr

def ttiSecs : Nat := 3600

def AcceptorMap.live (m : AcceptorMap) (now : Nat) : List Entry :=
  m.entries.filter (fun e => now < e.lastAccess + ttiSecs)

def AcceptorMap.get (m : AcceptorMap) (host : List Char) (now : Nat) :
    Nat × AcceptorMap :=
  match (m.live now).find? (fun e => e.key = normalize host) with
  | some e =>
      (e.acceptorId,
       ⟨(m.live now).map
          (fun x => if x.key = normalize host then ⟨x.key, x.acceptorId, now⟩ else x),
        m.nextId⟩)
  | none =>
      (m.nextId, ⟨⟨normalize host, m.nextId, now⟩ :: m.live now, m.nextId + 1⟩)

def AcceptorMap.WF (m : AcceptorMap) : Prop :=
  m.entries.Pairwise (fun a b => a.key ≠ b.key) ∧
  ∀ e ∈ m.entries, e.acceptorId < m.nextId

theorem pairwise_key_eq (l : List Entry)
    (hp : l.Pairwise (fun a b => a.key ≠ b.key))
    (x y : Entry) (hx : x ∈ l) (hy : y ∈ l) (hxy : x.key = y.key) : x = y := by
  induction l with
  | nil => cases hx
  | cons a t ih =>
      rw [List.pairwise_cons] at hp
      rcases List.mem_cons.mp hx with rfl | hxt
      · rcases List.mem_cons.mp hy with rfl | hyt
        · rfl
        · exact absurd hxy (hp.1 y hyt)
      · rcases List.mem_cons.mp hy with rfl | hyt
        · exact absurd hxy.symm (hp.1 x hxt)
        · exact ih hp.2 hxt hyt

theorem live_subset (m : AcceptorMap) (now : Nat) : m.live now ⊆ m.entries :=
  (List.filter_sublist _).subset

theorem live_mem (m : AcceptorMap) (now : Nat) (e : Entry) :
    e ∈ m.live now ↔ e ∈ m.entries ∧ now < e.lastAccess + ttiSecs := by
  simp [AcceptorMap.live]

theorem live_pairwise (m : AcceptorMap) (now : Nat)
    (hp : m.entries.Pairwise (fun a b => a.key ≠ b.key)) :
    (m.live now).Pairwise (fun a b => a.key ≠ b.key) :=
  hp.filter _

theorem mk_entries (es : List Entry) (n : Nat) : (AcceptorMap.mk es n).entries = es := rfl

theorem mk_nextId (es : List Entry) (n : Nat) : (AcceptorMap.mk es n).nextId = n := rfl

/-- After any `get`, the state is well-formed, it holds the entry
(normalized key, returned id, refreshed access time), the returned id is
below the mint counter, and the key's entry is unique. -/
theorem get_post (m : AcceptorMap) (host : List Char) (now : Nat) (hwf : m.WF) :
    ((m.get host now).2).WF ∧
    (⟨normalize host, (m.get host now).1, now⟩ : Entry) ∈ ((m.get host now).2).entries ∧
    (m.get host now).1 < ((m.get host now).2).nextId ∧
    (∀ e ∈ ((m.get host now).2).entries, e.key = normalize host →
      e = ⟨normalize host, (m.get host now).1, now⟩) := by
  obtain ⟨hpair, hids⟩ := hwf
  have hlp := live_pairwise m now hpair
  cases hfind : (m.live now).find? (fun e => e.key = normalize host) with
  | some e =>
      have hekey : e.key = normalize host := by
        have := List.find?_some hfind
        simpa using this
      have hemem : e ∈ m.live now := List.mem_of_find?_eq_some hfind
      have hkeys : ∀ x : Entry,
          ((if x.key = normalize host then (⟨x.key, x.acceptorId, now⟩ : Entry) else x)).key
            = x.key := by
        intro x
        by_cases hx : x.key = normalize host <;> simp [hx]
      have hget : m.get host now =
          (e.acceptorId,
           ⟨(m.live now).map
              (fun x => if x.key = normalize host then ⟨x.key, x.acceptorId, now⟩ else x),
            m.nextId⟩) := by
        rw [AcceptorMap.get, hfind]
      rw [hget]
      simp only [AcceptorMap.WF, mk_entries, mk_nextId]
      refine ⟨⟨?_, ?_⟩, ?_, ?_, ?_⟩
      · rw [List.pairwise_map]
        refine hlp.imp ?_
        intro a b hab
        rw [hkeys a, hkeys b]
        exact hab
      · intro y hy
        obtain ⟨x, hx, rfl⟩ := List.mem_map.mp hy
        have : x.acceptorId < m.nextId := hids x (live_subset m now hx)
        by_cases hxk : x.key = normalize host <;> simp [hxk, this]
      · have heq : (⟨normalize host, e.acceptorId, now⟩ : Entry)
            = (if e.key = normalize host then (⟨e.key, e.acceptorId, now⟩ : Entry) else e) := by
          simp [hekey]
        rw [heq]
        exact List.mem_map_of_mem _ hemem
      · exact hids e (live_subset m now hemem)
      · intro y hy hyk
        obtain ⟨x, hx, rfl⟩ := List.mem_map.mp hy
        rw [hkeys x] at hyk
        have hxe : x = e := pairwise_key_eq _ hlp x e hx hemem (hyk.trans hekey.symm)
        subst hxe
        simp [hyk]
  | none =>
      have hnone : ∀ x ∈ m.live now, ¬ (x.key = normalize host) := by
        intro x hx
        have := List.find?_eq_none.mp hfind x hx
        simpa using this
      have hget : m.get host now =
          (m.nextId, ⟨⟨normalize host, m.nextId, now⟩ :: m.live now, m.nextId + 1⟩) := by
        rw [AcceptorMap.get, hfind]
      rw [hget]
      simp only [AcceptorMap.WF, mk_entries, mk_nextId]
      refine ⟨⟨?_, ?_⟩, ?_, ?_, ?_⟩
      · rw [List.pairwise_cons]
        exact ⟨fun x hx => fun hk => hnone x hx hk.symm, hlp⟩
      · intro y hy
        rcases List.mem_cons.mp hy with rfl | hyt
        · simp
        · have := hids y (live_subset m now hyt)
          omega
      · exact List.mem_cons_self _ _
      · omega
      · intro y hy hyk
        rcases List.mem_cons.mp hy with rfl | hyt
        · rfl
        · exact absurd hyk (hnone y hyt)

theorem get_hit (m : AcceptorMap) (host : List Char) (now : Nat) (e : Entry)
    (hwf : m.WF) (he : e ∈ m.entries) (hekey : e.key = normalize host)
    (hlive : now < e.lastAccess + ttiSecs) :
    (m.get host now).1 = e.acceptorId := by
  have hel : e ∈ m.live now := (live_mem m now e).mpr ⟨he, hlive⟩
  cases hfy : (m.live now).find? (fun x => x.key = normalize host) with
  | none =>
      have := List.find?_eq_none.mp hfy e hel
      simp [hekey] at this
  | some y =>
      have hykey : y.key = normalize host := by
        have := List.find?_some hfy
        simpa using this
      have hymem : y ∈ m.live now := List.mem_of_find?_eq_some hfy
      have hye : y = e :=
        pairwise_key_eq _ (live_pairwise m now hwf.1) y e hymem hel
          (hykey.trans hekey.symm)
      rw [AcceptorMap.get, hfy, hye]

theorem get_miss (m : AcceptorMap) (host : List Char) (now : Nat)
    (hnone : ∀ e ∈ m.entries, e.key = normalize host →
      ¬ (now < e.lastAccess + ttiSecs)) :
    (m.get host now).1 = m.nextId := by
  have hfind : (m.live now).find? (fun x => x.key = normalize host) = none := by
    rw [List.find?_eq_none]
    intro x hx
    obtain ⟨hxm, hxl⟩ := (live_mem m now x).mp hx
    intro hk
    have hk2 : x.key = normalize host := by simpa using hk
    exact hnone x hxm hk2 hxl
  rw [AcceptorMap.get, hfind]

theorem c4_acceptor_cache (m0 : AcceptorMap) (h1 h2 : List Char) (t1 t2 : Nat)
    (hwf : m0.WF) (hkey : normalize h1 = normalize h2) :
    ((m0.get h1 t1).2).WF ∧
    ((((m0.get h1 t1).2).get h2 t2).2).WF ∧
    (t2 < t1 + ttiSecs →
      (((m0.get h1 t1).2).get h2 t2).1 = (m0.get h1 t1).1) ∧
    (t1 + ttiSecs ≤ t2 →
      (((m0.get h1 t1).2).get h2 t2).1 ≠ (m0.get h1 t1).1) := by
  obtain ⟨hwf1, hmem1, hlt1, huniq1⟩ := get_post m0 h1 t1 hwf
  obtain ⟨hwf2, hmem2, hlt2, huniq2⟩ := get_post ((m0.get h1 t1).2) h2 t2 hwf1
  refine ⟨hwf1, hwf2, ?_, ?_⟩
  · intro hlv
    have hh := get_hit ((m0.get h1 t1).2) h2 t2 ⟨normalize h1, (m0.get h1 t1).1, t1⟩
      hwf1 hmem1 (by simpa using hkey) (by simpa using hlv)
    simpa using hh
  · intro hevict
    have hmiss : ∀ e ∈ ((m0.get h1 t1).2).entries, e.key = normalize h2 →
        ¬ (t2 < e.lastAccess + ttiSecs) := by
      intro e he hek
      have he2 := huniq1 e he (hek.trans hkey.symm)
      rw [he2]
      show ¬ (t2 < t1 + ttiSecs)
      omega
    have hm := get_miss ((m0.get h1 t1).2) h2 t2 hmiss
    rw [hm]
    omega

theorem c4_acceptor_cache_witness :
    (((AcceptorMap.mk [] 0).get ("a.example.com".toList) 0).2).WF ∧
    (((((AcceptorMap.mk [] 0).get ("a.example.com".toList) 0).2).get
        ("b.example.com".toList) 10).2).WF ∧
    ((10 : Nat) < 0 + ttiSecs →
      ((((AcceptorMap.mk [] 0).get ("a.example.com".toList) 0).2).get
          ("b.example.com".toList) 10).1
        = ((AcceptorMap.mk [] 0).get ("a.example.com".toList) 0).1) ∧
    ((0 : Nat) + ttiSecs ≤ 10 →
      ((((AcceptorMap.mk [] 0).get ("a.example.com".toList) 0).2).get
          ("b.example.com".toList) 10).1
        ≠ ((AcceptorMap.mk [] 0).get ("a.example.com".toList) 0).1) :=
  c4_acceptor_cache (AcceptorMap.mk [] 0) ("a.example.com".toList)
    ("b.example.com".toList) 0 10 ⟨List.Pairwise.nil, by simp⟩ (by decide)

/-! ## Leaf certificate parameters (src/acceptor.rs, base_cert_param) -/

/-- An rcgen key pair, abstracted to its public/private components. -/
structure KeyPair where
  publicKey : Nat
  privateKey : Nat
  deriving DecidableEq, Repr

/-- Modelled from the spec: the single pre-generated RSA key pair that
`base_cert_param` obtains from `KeyPair::from_der` applied to the embedded
DER blob `cert/key.der` (the blob itself is repository material not under
src/, and per the spec it is a valid pre-generated key, so the parse
yields one fixed key pair).  Every mint evaluates the same constant
expression, so every leaf gets this same value. -/
def embeddedKeyPair : Option KeyPair := some ⟨0, 0⟩

structure DistinguishedName where
  countryName : List Char
  stateOrProvinceName : List Char
  localityName : List Char
  organizationName : List Char
  organizationalUnitName : List Char
  commonName : List Char
  deriving DecidableEq, Repr

structure CertificateParams where
  alg : List Nat
  notBefore : Nat
  notAfter : Nat
  subjectAltNames : List (List Char)
  distinguishedName : DistinguishedName
  keyPair : Option KeyPair
  deriving DecidableEq, Repr

/-- `3600 * 24 * 3650` seconds: the validity length the source adds to the
second clock sample (3650 days, the code's rendering of "10 years"). -/
def tenYearsSecs : Nat := 3600 * 24 * 3650

/-- `AcceptorMap::base_cert_param` (src/acceptor.rs lines 74-113).  The
source calls `time::OffsetDateTime::now_utc()` twice — once for
`not_before` and once, immediately afterwards, for `not_after` — so the
two samples are modelled as separate arguments `now1` and `now2`
(in seconds); under a monotone clock `now1 ≤ now2`.  The signature
algorithm is the OID 1.2.840.113549.1.1.11 (SHA-256 RSA), the single
subject-alt-name is the DNS entry for `host`, the distinguished name has
"Yaler" in every organizational slot and CommonName `host`, and the key
pair is the embedded pre-generated one. -/
def base_cert_param (host : List Char) (now1 now2 : Nat) : CertificateParams :=
  { alg := [1, 2, 840, 113549, 1, 1, 11]
    notBefore := now1
    notAfter := now2 + tenYearsSecs
    subjectAltNames := [host]
    distinguishedName :=
      { countryName := "Yaler".toList
        stateOrProvinceName := "Yaler".toList
        localityName := "Yaler".toList
        organizationName := "Yaler".toList
        organizationalUnitName := "Yaler".toList
        commonName := host }
    keyPair := embeddedKeyPair }

/-- C5: every leaf's certificate parameters carry the key pair parsed from
the embedded DER blob — the same constant for every host and every mint
time — so any two minted leaves have identical key pairs and in particular
identical public keys. -/
theorem c5_shared_key_pair (h1 h2 : List Char) (t1 t2 u1 u2 : Nat) :
    (base_cert_param h1 t1 t2).keyPair = embeddedKeyPair ∧
    (base_cert_param h1 t1 t2).keyPair = (base_cert_param h2 u1 u2).keyPair ∧
    ((base_cert_param h1 t1 t2).keyPair.map KeyPair.publicKey)
      = ((base_cert_param h2 u1 u2).keyPair.map KeyPair.publicKey) :=
  ⟨rfl, rfl, rfl⟩

/-- C6, counterexample: the source samples the clock twice, so whenever the
second `now_utc()` call observes a later time than the first (here `now1 =
0`, `now2 = 1`), `notAfter` is *not* `notBefore` plus the 10-year validity
span — it is one second more — refuting the claim that `notAfter` equals
the mint time (`notBefore`) plus 10 years. -/
theorem c6_counterexample :
    (base_cert_param ['a'] 0 1).notAfter ≠
      (base_cert_param ['a'] 0 1).notBefore + tenYearsSecs := by
  decide

/-- C6 (amended): `notBefore` is the first clock sample of the mint and
`notAfter` is the second sample plus 3650 days (the code's "10 years");
under a monotone clock (`now1 ≤ now2`) the mint time `now2` satisfies
`notBefore ≤ now2 ≤ notAfter`, and `notAfter` lies at least 3650 days
after the mint.  `notAfter = notBefore + 10 years` holds only when the two
samples coincide. -/
theorem c6_validity_amended (host : List Char) (now1 now2 : Nat) (h : now1 ≤ now2) :
    (base_cert_param host now1 now2).notBefore = now1 ∧
    (base_cert_param host now1 now2).notAfter = now2 + tenYearsSecs ∧
    (base_cert_param host now1 now2).notBefore ≤ now2 ∧
    now2 ≤ (base_cert_param host now1 now2).notAfter ∧
    now2 + tenYearsSecs ≤ (base_cert_param host now1 now2).notAfter := by
  refine ⟨rfl, rfl, h, ?_, ?_⟩
  · show now2 ≤ now2 + tenYearsSecs
    omega
  · show now2 + tenYearsSecs ≤ now2 + tenYearsSecs
    omega

/-- Witness for C6 (amended) at host "a", samples 0 and 1. -/
theorem c6_validity_amended_witness :
    (base_cert_param ['a'] 0 1).notBefore = 0 ∧
    (base_cert_param ['a'] 0 1).notAfter = 1 + tenYearsSecs ∧
    (base_cert_param ['a'] 0 1).notBefore ≤ 1 ∧
    (1 : Nat) ≤ (base_cert_param ['a'] 0 1).notAfter ∧
    (1 : Nat) + tenYearsSecs ≤ (base_cert_param ['a'] 0 1).notAfter :=
  c6_validity_amended ['a'] 0 1 (by decide)

/-! ## Request dispatcher and forward proxy (src/server.rs) -/

inductive HttpVersion where
  | http10
  | http11
  deriving DecidableEq, Repr

inductive Method where
  | CONNECT
  | GET
  | POST
  | otherMethod
  deriving DecidableEq, Repr

/-- The request target's authority parts, as exposed by `http::Uri`:
`host()` and `port()` both return options. -/
structure Uri where
  host : Option (List Char)
  port : Option Nat
  deriving DecidableEq, Repr

structure Request where
  method : Method
  uri : Uri
  version : HttpVersion
  headers : List (List Char × List Char)
  deriving DecidableEq, Repr

/-- The single HTTP response `connect_to_remote` serializes back to the
client: the request's version, a status code, and an empty body. -/
structure Response where
  version : HttpVersion
  status : Nat
  body : List Nat
  deriving DecidableEq, Repr

/-- `Server::connect_to_remote` (src/server.rs lines 106-136).  The result
of `TcpStream::connect(host:port)` is supplied as the oracle `conn`
(`.ok` = the plain TCP connection succeeded, `.error` = it failed).  Rust
evaluates the `format!` arguments `req.uri().host().unwrap()` and
`req.uri().port().unwrap()` before connecting and before writing anything
to the client, so a missing host or port panics first — modelled as
`none`, with no response produced.  Otherwise the function builds a
response with the request's version and status 200 OK on success or 500
Internal Server Error on failure, writes it (returned as the first
component), and returns `connection.map_err(Error::TcpConnectError)`. -/
def connect_to_remote (req : Request) (conn : Except Nat Unit) :
    Option (Response × Except Error Unit) :=
  match req.uri.host, req.uri.port with
  | some _, some _ =>
      some ({ version := req.version
              status := match conn with
                | .ok _ => 200
                | .error _ => 500
              body := [] },
            conn.mapError (fun _ => Error.TcpConnectError))
  | _, _ => none

/-- Outcome of the CONNECT arm of `Server::handle_stream`. -/
inductive ConnectStep where
  | tunnel
  | panicked
  deriving DecidableEq, Repr

/-- The CONNECT arm of `Server::handle_stream` (src/server.rs lines 87-100)
from the call to `connect_to_remote` on: the list of responses written to
the client, and whether the task went on to `handle_https` (the TLS
handshakes and tunnel) or aborted.  `Self::connect_to_remote(..).unwrap()`
panics when `connect_to_remote` returned an `Err` — after the 500 response
has already been written and flushed — so the task aborts and the client
socket is dropped (closed) without tunneling. -/
def handleConnect (req : Request) (conn : Except Nat Unit) :
    List Response × ConnectStep :=
  match connect_to_remote req conn with
  | none => ([], .panicked)
  | some (resp, .ok _) => ([resp], .tunnel)
  | some (resp, .error _) => ([resp], .panicked)

/-- C7: for a CONNECT request whose authority has a host and a port,
exactly one response is written to the client before any TLS handshake; it
carries the request's HTTP version, with status 200 when the plain TCP
connection to host:port succeeded — after which the task proceeds to the
tunnel — and status 500 when it failed, after which the task aborts
without tunneling (the connection is closed). -/
theorem c7_connect_reply (req : Request) (conn : Except Nat Unit)
    (hst : List Char) (prt : Nat)
    (hh : req.uri.host = some hst) (hp : req.uri.port = some prt) :
    (∀ u, conn = .ok u →
      handleConnect req conn = ([⟨req.version, 200, []⟩], .tunnel)) ∧
    (∀ e, conn = .error e →
      handleConnect req conn = ([⟨req.version, 500, []⟩], .panicked)) := by
  constructor
  · intro u hc
    subst hc
    simp [handleConnect, connect_to_remote, hh, hp, Except.mapError]
  · intro e hc
    subst hc
    simp [handleConnect, connect_to_remote, hh, hp, Except.mapError]

/-- Witness for C7: CONNECT example:443, HTTP/1.1, with a succeeding TCP
connect. -/
theorem c7_connect_reply_witness :
    (∀ u, (Except.ok () : Except Nat Unit) = .ok u →
      handleConnect ⟨.CONNECT, ⟨some ['e'], some 443⟩, .http11, []⟩ (.ok ()) =
        ([⟨HttpVersion.http11, 200, []⟩], .tunnel)) ∧
    (∀ e, (Except.ok () : Except Nat Unit) = .error e →
      handleConnect ⟨.CONNECT, ⟨some ['e'], some 443⟩, .http11, []⟩ (.ok ()) =
        ([⟨HttpVersion.http11, 500, []⟩], .panicked)) :=
  c7_connect_reply ⟨.CONNECT, ⟨some ['e'], some 443⟩, .http11, []⟩ (.ok ())
    ['e'] 443 rfl rfl

/-- C10: for a CONNECT request whose authority has a host but no port,
`req.uri().port().unwrap()` in `connect_to_remote` panics (the `None`
branch is reachable), so the task aborts before any response — 200 or 500
— is written to the client. -/
theorem c10_missing_port_panics (req : Request) (conn : Except Nat Unit)
    (hst : List Char) (hh : req.uri.host = some hst) (hp : req.uri.port = none) :
    connect_to_remote req conn = none ∧
    handleConnect req conn = ([], .panicked) := by
  have hc : connect_to_remote req conn = none := by
    rw [connect_to_remote.eq_def, hh, hp]
  refine ⟨hc, ?_⟩
  rw [handleConnect.eq_def, hc]

/-- Witness for C10: CONNECT with authority "e" (host only, no port). -/
theorem c10_missing_port_panics_witness :
    connect_to_remote ⟨.CONNECT, ⟨some ['e'], none⟩, .http11, []⟩ (.ok ()) = none ∧
    handleConnect ⟨.CONNECT, ⟨some ['e'], none⟩, .http11, []⟩ (.ok ()) =
      ([], .panicked) :=
  c10_missing_port_panics ⟨.CONNECT, ⟨some ['e'], none⟩, .http11, []⟩ (.ok ())
    ['e'] rfl rfl

/-- The `http` crate's `CONTENT_LENGTH` header name (header names are
stored lower-cased). -/
def contentLengthKey : List Char := "content-length".toList

/-- Rust `str::parse::<usize>` on the digit strings relevant here: one or
more ASCII digits; anything else fails. -/
def parseUsize (s : List Char) : Option Nat :=
  if s ≠ [] ∧ s.all (fun c => c.isDigit) then
    some (s.foldl (fun n c => 10 * n + (c.toNat - 48)) 0)
  else none

/-- `Server::read_body` (src/server.rs lines 201-208).  `headers` is the
request's header map, `stream` the bytes available from the client;
the result is `some (body, remaining stream)`, while `none` models a
panic.  `headers.get(CONTENT_LENGTH).unwrap()` panics when the header is
absent and `parse().unwrap()` panics on a malformed value.  When the value
parses to `n`, the source allocates `Vec::with_capacity(n)` — a vector of
*length zero* — and calls `read_exact(&mut buf[..n])`: for `n > 0` the
slice `buf[..n]` is out of bounds and panics, so no bytes are ever read;
only `n = 0` reaches `read_exact`, which reads zero bytes and returns the
empty body. -/
def read_body (headers : List (List Char × List Char)) (stream : List Nat) :
    Option (List Nat × List Nat) :=
  match headers.find? (fun p => p.1 = contentLengthKey) with
  | none => none
  | some p =>
      match parseUsize p.2 with
      | none => none
      | some n => if n = 0 then some ([], stream) else none

/-- C1, at the failing inputs: a POST carrying `Content-Length: 5` with the
five body bytes "HELLO" available panics (no body is read, nothing is
forwarded), a POST with no Content-Length header also panics instead of
being forwarded with a zero-length body, and only the degenerate
`Content-Length: 0` succeeds, with an empty body. -/
theorem c1_read_body_failing :
    read_body [(contentLengthKey, ['5'])] [72, 69, 76, 76, 79] = none ∧
    read_body [] [72, 69, 76, 76, 79] = none ∧
    read_body [(contentLengthKey, ['0'])] [72, 69, 76, 76, 79]
      = some ([], [72, 69, 76, 76, 79]) := by
  decide

end Yaler
